import Mathlib

/-!
Verification of the ticker-tagging engine of the Stock_Port repository.

The definitions below are a shallow embedding of
src/src/ingest/news/ticker_tagger.py (and, for persistence, of the DuckDB
schema in src/src/db/__init__.py).  Text is modelled as a list of
characters, confidences as rationals (the Python code uses floats, but all
score formulas are exact decimal arithmetic, embedded here exactly), and
fallible calls return Except values.  Source line numbers are cited in the
doc comments of each definition.
-/

namespace StockPort

/-- Convert a Lean string literal to the character-list representation used
throughout this development. -/
def chars (s : String) : List Char := s.data

/-- Text type: Python strings are modelled as lists of characters. -/
abbrev Str := List Char

/-- Word character in the sense of the regex class used by the patterns in
ticker_tagger.py: letters, digits, or the underscore. -/
def isWordChar (c : Char) : Bool := c.isAlphanum || c == '_'

/-- Uppercase a string, modelling the Python str.upper method on the ASCII
texts the tagger handles. -/
def upperStr (s : Str) : Str := s.map Char.toUpper

/-- Lowercase a string, modelling the Python str.lower method. -/
def lowerStr (s : Str) : Str := s.map Char.toLower

/-- True when the string is empty or consists only of whitespace; this is the
meaning of the Python test `not full_text.strip()` at line 130. -/
def isBlank (s : Str) : Bool := s.all Char.isWhitespace

/-- Substring test, modelling the Python expression `needle in hay`. -/
def containsSub (needle : Str) : Str → Bool
  | [] => needle.isEmpty
  | c :: t => needle.isPrefixOf (c :: t) || containsSub needle t

/-- Fuel-driven worker for countOccs; the fuel is always at least the length
of the haystack plus one, so it never runs out. -/
def countOccsF (needle : Str) : Nat → Str → Nat
  | 0, _ => 0
  | _ + 1, [] => 0
  | fuel + 1, c :: t =>
    if needle.isPrefixOf (c :: t) then
      1 + countOccsF needle fuel ((c :: t).drop needle.length)
    else
      countOccsF needle fuel t

/-- Number of non-overlapping occurrences of a (nonempty) needle, modelling
the Python expression `full_text.count(ticker)` at line 328. -/
def countOccs (needle : Str) (hay : Str) : Nat :=
  countOccsF needle (hay.length + 1) hay

/-- TICKER_BLACKLIST (ticker_tagger.py lines 18 to 23). -/
def TICKER_BLACKLIST : List Str :=
  [chars "THE", chars "AND", chars "FOR", chars "ARE", chars "BUT", chars "NOT",
   chars "YOU", chars "ALL", chars "CAN", chars "HER",
   chars "WAS", chars "ONE", chars "OUR", chars "HAD", chars "DAY", chars "GET",
   chars "USE", chars "MAN", chars "NEW", chars "NOW",
   chars "OLD", chars "SEE", chars "HIM", chars "TWO", chars "HOW", chars "ITS",
   chars "WHO", chars "OIL", chars "SIT", chars "SET",
   chars "USA", chars "CEO", chars "CFO", chars "CTO", chars "IPO", chars "SEC",
   chars "FDA", chars "FBI", chars "CIA", chars "NSA"]

/-- The financial vocabulary consulted by _calculate_pattern_confidence
(lines 316 to 317). -/
def financial_indicators : List Str :=
  [chars "stock", chars "shares", chars "trading", chars "market", chars "price",
   chars "earnings", chars "revenue", chars "investor", chars "analyst",
   chars "upgrade", chars "downgrade"]

/-- The list of ultra-common words penalised at line 332 (the source list
literal repeats BUT; membership is unaffected). -/
def penaltyTokens : List Str :=
  [chars "THE", chars "AND", chars "FOR", chars "ARE", chars "BUT", chars "NOT",
   chars "YOU", chars "ALL", chars "CAN", chars "HER", chars "WAS", chars "ONE",
   chars "OUR", chars "HAD", chars "BUT", chars "SAID"]

/-- The financial terms consulted by _calculate_contextual_confidence
(line 346). -/
def financial_terms : List Str :=
  [chars "stock", chars "shares", chars "ticker", chars "symbol", chars "trades",
   chars "listed", chars "nasdaq", chars "nyse"]

/-- Number of financial indicator words occurring as substrings of the
lowercased context (the loop at lines 319 to 321 adds 0.1 once per listed
indicator found in the context). -/
def indicatorCount (context : Str) : Nat :=
  (financial_indicators.filter (fun i => containsSub i (lowerStr context))).length

/-- Dollar-prefix bonus of _calculate_pattern_confidence (lines 323 to 325). -/
def dollarBonus (ticker full_text : Str) : ℚ :=
  if containsSub (chars "$" ++ ticker) full_text then 1/5 else 0

/-- Repetition bonus actually computed at lines 327 to 329:
0.05 per occurrence, counting the first one, capped at 0.2. -/
def patternRepetitionBonus (mention_count : Nat) : ℚ :=
  min ((mention_count : ℚ) * (1/20)) (1/5)

/-- Repetition bonus as the claim describes it: 0.05 per extra occurrence
beyond the first, capped at 0.2, so a token occurring exactly once receives
no repetition bonus.  Stated only to be compared against the source. -/
def claimRepetitionBonus (mention_count : Nat) : ℚ :=
  min (((mention_count : ℚ) - 1) * (1/20)) (1/5)

/-- Embedding of _calculate_pattern_confidence (lines 309 to 335).  The
accumulator starts at 0.5, gains 0.1 per financial indicator present in the
context window, 0.2 for a dollar-prefixed occurrence of the symbol anywhere
in the document, and min(count * 0.05, 0.2) for repeated mentions; the whole
sum is multiplied by 0.1 for ultra-common tokens, and finally clamped by
min(confidence, 1.0). -/
def calculate_pattern_confidence (ticker context full_text : Str) : ℚ :=
  let c1 : ℚ := 1/2 + (indicatorCount context : ℚ) * (1/10)
  let c2 : ℚ := c1 + dollarBonus ticker full_text
  let c3 : ℚ := c2 + patternRepetitionBonus (countOccs ticker full_text)
  let c4 : ℚ := if ticker ∈ penaltyTokens then c3 * (1/10) else c3
  min c4 1

/-- Number of financial terms contained in the lowercased matched phrase
(the loop at lines 346 to 349). -/
def termCount (matched_text : Str) : Nat :=
  (financial_terms.filter (fun t => containsSub t (lowerStr matched_text))).length

/-- Embedding of _calculate_contextual_confidence (lines 337 to 351): base
0.7, plus 0.2 for a parenthetical matched phrase, plus 0.1 per financial term
inside the matched phrase, clamped by min(confidence, 1.0).  The ticker and
context parameters are unused by the source body and kept for fidelity. -/
def calculate_contextual_confidence (ticker context matched_text : Str) : ℚ :=
  let c1 : ℚ := 7/10 +
    (if containsSub (chars "(") matched_text ∧ containsSub (chars ")") matched_text
     then 1/5 else 0)
  let c2 : ℚ := c1 + (termCount matched_text : ℚ) * (1/10)
  min c2 1

/-- Methods of the four matching strategies; the source stores them as the
strings known_symbol, company_name, pattern_match, contextual_match. -/
inductive MatchMethod where
  | known_symbol
  | company_name
  | pattern_match
  | contextual_match
deriving DecidableEq, Repr

/-- Embedding of the TickerMatch dataclass (lines 35 to 43). -/
structure TickerMatch where
  symbol : Str
  company_name : Str
  positions : List (Nat × Nat)
  context_snippets : List Str
  confidence : ℚ
  match_method : MatchMethod
deriving DecidableEq, Repr

/-- One row of the ticker_symbols table as consumed by _load_ticker_data.
Optional fields model SQL NULL (pandas NaN / None); created_at and the
market_cap column are irrelevant to every claim and omitted. -/
structure DbRow where
  id : Option Int
  symbol : Str
  company_name : Option Str
  aliases : Option Str
  sector : Option Str
  is_active : Bool
deriving DecidableEq, Repr

/-- The per-record dictionary built at lines 70 to 76 (the symbol_obj). -/
structure SymbolObj where
  id : Option Int
  symbol : Str
  company_name : Option Str
  aliases : List Str
  sector : Option Str
deriving DecidableEq, Repr

/-- Association list modelling a Python dict from strings to symbol objects:
assignment overwrites an existing key in place and otherwise appends, which
matches the ordered-dict semantics of Python. -/
def alInsert (k : Str) (v : SymbolObj) : List (Str × SymbolObj) → List (Str × SymbolObj)
  | [] => [(k, v)]
  | (k2, v2) :: t => if k2 = k then (k, v) :: t else (k2, v2) :: alInsert k v t

/-- Lookup in the association-list dictionary (Python dict.get). -/
def alGet? (d : List (Str × SymbolObj)) (k : Str) : Option SymbolObj :=
  (d.find? (fun p => p.1 = k)).map Prod.snd

/-- The three lookup indexes owned by the TickerTagger instance
(lines 49 to 51). -/
structure TaggerState where
  symbol_dict : List (Str × SymbolObj)
  company_name_dict : List (Str × SymbolObj)
  alias_dict : List (Str × SymbolObj)
deriving DecidableEq, Repr

/-- Empty tagger state, as after __init__ when no row was loaded. -/
def emptyTagger : TaggerState := ⟨[], [], []⟩

/-- Alias payload of one row, line 74: None or an empty payload yields the
empty list without parsing; otherwise the serialized payload is parsed.  The
parser stands for the external library call json.loads and is therefore a
parameter; a parse error models the exception that call raises on malformed
input. -/
def aliasPayload (parse : Str → Except Unit (List Str)) (row : DbRow) :
    Except Unit (List Str) :=
  match row.aliases with
  | none => .ok []
  | some s => if s = [] then .ok [] else parse s

/-- Processing of one successfully parsed row (lines 70 to 88): register the
symbol, the lowercased company name when present and nonempty, and every
lowercased alias. -/
def loadRow (st : TaggerState) (row : DbRow) (als : List Str) : TaggerState :=
  let obj : SymbolObj :=
    { id := row.id, symbol := row.symbol, company_name := row.company_name,
      aliases := als, sector := row.sector }
  let st1 := { st with symbol_dict := alInsert row.symbol obj st.symbol_dict }
  let st2 :=
    match row.company_name with
    | some cn =>
        if cn ≠ [] then
          { st1 with company_name_dict := alInsert (lowerStr cn) obj st1.company_name_dict }
        else st1
    | none => st1
  als.foldl (fun s a => { s with alias_dict := alInsert (lowerStr a) obj s.alias_dict }) st2

/-- The row loop of _load_ticker_data.  The whole loop body sits inside one
try block (lines 63 to 93) whose except clause only logs a warning, so a
parse error on one record ends the loop and keeps the dictionaries built so
far: the failing record and every later record are dropped. -/
def loadRows (parse : Str → Except Unit (List Str)) :
    TaggerState → List DbRow → TaggerState
  | st, [] => st
  | st, r :: rest =>
    match aliasPayload parse r with
    | .error _ => st
    | .ok als => loadRows parse (loadRow st r als) rest

/-- Embedding of _load_ticker_data (lines 61 to 93).  The SQL query at
line 64 selects the active rows; the loop then builds the three indexes. -/
def load_ticker_data (parse : Str → Except Unit (List Str)) (rows : List DbRow) :
    TaggerState :=
  loadRows parse emptyTagger (rows.filter (fun r => r.is_active))

/-- Character of a text at an index, as an Option. -/
def charAt? (s : Str) (i : Nat) : Option Char := s.get? i

/-- True when the character at the index exists and is a word character;
out-of-range positions count as non-word, as for the regex boundary class. -/
def isWordAt (s : Str) (i : Nat) : Bool :=
  match charAt? s i with
  | some c => isWordChar c
  | none => false

/-- Word boundary of the regex anchor between positions i-1 and i:
exactly one of the two neighbouring characters is a word character. -/
def wordBoundaryAt (s : Str) (i : Nat) : Bool :=
  (if i = 0 then false else isWordAt s (i - 1)) != isWordAt s i

/-- Indexes at which a maximal run of word characters starts. -/
def tokenStarts (s : Str) : List Nat :=
  (List.range s.length).filter
    (fun i => isWordAt s i && !(decide (0 < i) && isWordAt s (i - 1)))

/-- The maximal word tokens of a text together with their spans; these are
exactly the whole-word matches a boundary-anchored regex can produce on the
text when the searched words consist of word characters only. -/
def tokensWithSpans (s : Str) : List (Str × Nat × Nat) :=
  (tokenStarts s).map
    (fun i =>
      let run := (s.drop i).takeWhile isWordChar
      (run, i, i + run.length))

/-- Case-insensitive comparison of the slice of the text starting at p with
the needle. -/
def sliceEqICase (needle : Str) (s : Str) (p : Nat) : Bool :=
  lowerStr ((s.drop p).take needle.length) == lowerStr needle

/-- Case-insensitive whole-word occurrences of a literal needle: every span
at which the needle matches with a regex word boundary on both sides.  This
models finditer of a boundary-anchored alternation one literal at a time; it
coincides with the regex semantics whenever distinct alternatives never
overlap in the text (regex matches are taken non-overlapping left to
right). -/
def boundedOccsICase (needle : Str) (s : Str) : List (Nat × Nat) :=
  (List.range (s.length + 1)).filterMap
    (fun p =>
      if needle ≠ [] ∧ sliceEqICase needle s p = true ∧
         wordBoundaryAt s p = true ∧ wordBoundaryAt s (p + needle.length) = true
      then some (p, p + needle.length) else none)

/-- Indexes at which a maximal run of non-whitespace starts. -/
def nonWsAt (s : Str) (i : Nat) : Bool :=
  match charAt? s i with
  | some c => !c.isWhitespace
  | none => false

/-- Whitespace split of a text, modelling str.split with no argument:
maximal runs of non-whitespace characters. -/
def splitWS (s : Str) : List Str :=
  ((List.range s.length).filter
      (fun i => nonWsAt s i && !(decide (0 < i) && nonWsAt s (i - 1)))).map
    (fun i => (s.drop i).takeWhile (fun c => !c.isWhitespace))

/-- Join a list of words with single spaces. -/
def joinSpace : List Str → Str
  | [] => []
  | [w] => w
  | w :: rest => w ++ (' ' :: joinSpace rest)

/-- Embedding of _extract_context (lines 297 to 307): a window of the given
radius around the span, whitespace-normalized.  The source strips and then
splits on whitespace and rejoins with single spaces; since the split already
discards leading and trailing whitespace, the strip is subsumed by the
split-join. -/
def extract_context (text : Str) (start stop window : Nat) : Str :=
  let contextStart := start - window
  let contextEnd := min text.length (stop + window)
  joinSpace (splitWS ((text.drop contextStart).take (contextEnd - contextStart)))

/-- Embedding of _match_known_symbols (lines 158 to 190).  The compiled
pattern is a case-insensitive whole-word alternation of the loaded symbols
(lines 100 to 110); on texts it can only match maximal word tokens (for
symbols made of word characters, a boundary-anchored match must cover a whole
token), so the matcher walks the tokens of the text, uppercases each hit as
match.group(1).upper() does, skips blacklisted hits, and looks the hit up in
symbol_dict; a missing entry produces nothing, exactly as a token outside the
alternation produces no regex match. -/
def match_known_symbols (st : TaggerState) (text : Str) : List TickerMatch :=
  (tokensWithSpans text).filterMap
    (fun tok =>
      let symbol := upperStr tok.1
      let start := tok.2.1
      let stop := tok.2.2
      if symbol ∈ TICKER_BLACKLIST then none
      else
        match alGet? st.symbol_dict symbol with
        | none => none
        | some obj =>
          some { symbol := symbol,
                 company_name := obj.company_name.getD [],
                 positions := [(start, stop)],
                 context_snippets := [extract_context text start stop 50],
                 confidence := 9/10,
                 match_method := .known_symbol })

/-- Embedding of _match_company_names (lines 192 to 222) together with the
pattern compilation of lines 112 to 124: the names taken into the pattern are
the keys of company_name_dict longer than three characters; every
case-insensitive whole-word occurrence of such a name yields a match whose
lowercased text (the key itself) is resolved through company_name_dict and
then alias_dict.  Occurrences are enumerated name by name; this agrees with
the single finditer pass whenever occurrences of distinct names do not
overlap in the text. -/
def match_company_names (st : TaggerState) (text : Str) : List TickerMatch :=
  let names := (st.company_name_dict.map Prod.fst).filter (fun n => 3 < n.length)
  (names.map
    (fun name =>
      (boundedOccsICase name text).filterMap
        (fun span =>
          let start := span.1
          let stop := span.2
          let obj? :=
            match alGet? st.company_name_dict name with
            | some o => some o
            | none => alGet? st.alias_dict name
          match obj? with
          | none => none
          | some obj =>
            some { symbol := obj.symbol,
                   company_name := obj.company_name.getD [],
                   positions := [(start, stop)],
                   context_snippets := [extract_context text start stop 50],
                   confidence := 4/5,
                   match_method := .company_name }))).flatten

/-- One raw hit of the five contextual template regexes of lines 262 to 268:
the captured ticker group (groups[-1]), the optional leading company group
(groups[0] of the first template), the span of the whole match, and the whole
matched text (match.group(0)).  The template regexes themselves are treated
as an oracle producing these hits; the loop body of lines 270 to 293, which
is what the claims speak about, is embedded faithfully below. -/
structure CtxCandidate where
  ticker : Str
  groups_company : Str
  hasCompanyGroup : Bool
  start : Nat
  stop : Nat
  matched : Str
deriving DecidableEq, Repr

/-- Embedding of the loop body of _match_contextual_tickers (lines 270 to
293) over a list of raw template hits: uppercase the ticker group, skip
blacklisted terms, score with _calculate_contextual_confidence over a window
of 100 characters, and keep the hit when the confidence exceeds 0.5. -/
def match_contextual_tickers (text : Str) (cands : List CtxCandidate) :
    List TickerMatch :=
  cands.filterMap
    (fun c =>
      let ticker := upperStr c.ticker
      if ticker ∈ TICKER_BLACKLIST then none
      else
        let context := extract_context text c.start c.stop 100
        let confidence := calculate_contextual_confidence ticker context c.matched
        let company := if c.hasCompanyGroup ∧ c.groups_company ≠ [] then c.groups_company else []
        if 1/2 < confidence then
          some { symbol := ticker,
                 company_name := company,
                 positions := [(c.start, c.stop)],
                 context_snippets := [context],
                 confidence := confidence,
                 match_method := .contextual_match }
        else none)

/-- Runtime errors of the embedded Python fragments. -/
inductive PyErr where
  | typeError
  | constraintViolation
deriving DecidableEq, Repr

/-- Parameter list of the definition of extract_tickers_from_text at
line 25: the single positional parameter text. -/
def extractTickersFromTextParams : List String := ["text"]

/-- Keyword arguments passed at the call site inside _match_ticker_patterns
at line 229 beyond the positional argument. -/
def matchTickerPatternsCallKwargs : List String := ["use_whitelist"]

/-- Embedding of _match_ticker_patterns (lines 224 to 255).  Its first
statement calls extract_tickers_from_text(text, use_whitelist=False), but the
definition of extract_tickers_from_text at line 25 accepts only the
positional parameter text; in Python such a call raises TypeError before the
called body runs, so the remainder of the loop (lines 231 to 254) is
unreachable.  The call protocol is modelled explicitly: the call succeeds
only when every keyword argument names a declared parameter, and the
unreachable success branch returns the empty list. -/
def match_ticker_patterns (text : Str) : Except PyErr (List TickerMatch) :=
  if matchTickerPatternsCallKwargs.all (fun k => extractTickersFromTextParams.contains k) then
    .ok []
  else
    .error .typeError

/-- Maximum of a list of rationals with Python max semantics on nonempty
lists (the empty case, which the source never reaches, yields 0). -/
def maxList : List ℚ → ℚ
  | [] => 0
  | c :: t => t.foldl max c

/-- Priority ranking of methods used for dominant-method selection
(line 399). -/
def method_priority : MatchMethod → Nat
  | .known_symbol => 4
  | .company_name => 3
  | .contextual_match => 2
  | .pattern_match => 1

/-- First maximal element under a rank, modelling Python max with a key. -/
def maxByFirst (rank : MatchMethod → Nat) (x : MatchMethod) (xs : List MatchMethod) :
    MatchMethod :=
  xs.foldl (fun best y => if rank best < rank y then y else best) x

/-- Longest of a list of names, first one on ties, modelling
max(company_names, key=len) at line 384. -/
def bestName : List Str → Str
  | [] => []
  | x :: xs => xs.foldl (fun b y => if b.length < y.length then y else b) x

/-- The merged score of lines 379 to 391 over the list of contributing
confidences and the number of collected spans:
final = max * 0.7 + mean * 0.3, boosted by the factor (1 + count * 0.05) and
clamped at 1.0 when more than one span exists. -/
def mergedScore (confs : List ℚ) (mention_count : Nat) : ℚ :=
  let fc := maxList confs * (7/10) + (confs.sum / (confs.length : ℚ)) * (3/10)
  if 1 < mention_count then min (fc * (1 + (mention_count : ℚ) * (1/20))) 1 else fc

/-- Merged confidence for a group in which every contributing raw match
carries exactly one span, which is true of all four matchers: the span count
then equals the number of contributing mentions. -/
def mergedConfidence (confs : List ℚ) : ℚ :=
  mergedScore confs confs.length

/-- Append a match to its symbol group, creating the group on first sight;
group order is first-occurrence order as for a Python defaultdict. -/
def groupAdd (acc : List (Str × List TickerMatch)) (m : TickerMatch) :
    List (Str × List TickerMatch) :=
  match acc with
  | [] => [(m.symbol, [m])]
  | (s, ms) :: t => if s = m.symbol then (s, ms ++ [m]) :: t else (s, ms) :: groupAdd t m

/-- Stable descending insertion by confidence: an element moves past exactly
the elements of strictly smaller confidence, so equal confidences keep their
original order, matching the stable Python sort with reverse=True
(line 403). -/
def insertDesc (m : TickerMatch) : List TickerMatch → List TickerMatch
  | [] => [m]
  | x :: xs => if x.confidence < m.confidence then m :: x :: xs else x :: insertDesc m xs

/-- Stable sort by descending confidence. -/
def sortByConfDesc (ms : List TickerMatch) : List TickerMatch :=
  ms.foldl (fun acc m => insertDesc m acc) []

/-- Embedding of _deduplicate_and_score (lines 353 to 405): group the raw
matches by symbol, merge each nonempty group into one result (all spans, the
first five contexts, the merged confidence, the longest nonempty company
name, the highest-priority contributing method), and sort by descending
confidence.  The text parameter is unused by the source body and kept for
fidelity. -/
def deduplicate_and_score (ms : List TickerMatch) (text : Str) :
    List TickerMatch :=
  let groups := ms.foldl groupAdd []
  let finals := groups.filterMap
    (fun g =>
      match g.2 with
      | [] => none
      | m0 :: rest =>
        let match_list := m0 :: rest
        let all_positions := (match_list.map TickerMatch.positions).flatten
        let all_contexts := (match_list.map TickerMatch.context_snippets).flatten
        let confidences := match_list.map TickerMatch.confidence
        let methods := match_list.map TickerMatch.match_method
        let company_names :=
          (match_list.map TickerMatch.company_name).filter (fun n => n ≠ [])
        some { symbol := g.1,
               company_name := bestName company_names,
               positions := all_positions,
               context_snippets := all_contexts.take 5,
               confidence := mergedScore confidences all_positions.length,
               match_method := maxByFirst method_priority m0.match_method methods.tail })
  sortByConfDesc finals

/-- The combined text of line 129: title and body joined by one space when
the title is nonempty (a nonempty Python string is truthy), otherwise the
body alone. -/
def fullTextOf (title text : Str) : Str :=
  if title ≠ [] then title ++ (' ' :: text) else text

/-- Embedding of tag_article_text (lines 126 to 156).  Blank combined text
returns the empty list at line 131.  Otherwise the four matchers run in
order; the third one, _match_ticker_patterns, raises (see
match_ticker_patterns), so the exception propagates out of the method and the
fourth matcher and the merge never run on a non-blank document.  The
extractCands parameter stands for the raw hits of the five contextual
template regexes on the combined text. -/
def tag_article_text (st : TaggerState)
    (extractCands : Str → List CtxCandidate) (title text : Str) :
    Except PyErr (List TickerMatch) :=
  let full_text := fullTextOf title text
  if isBlank full_text then .ok []
  else do
    let known := match_known_symbols st full_text
    let company := match_company_names st full_text
    let pattern ← match_ticker_patterns full_text
    let contextual := match_contextual_tickers full_text (extractCands full_text)
    pure (deduplicate_and_score (known ++ company ++ pattern ++ contextual) full_text)

/-- One row of the ticker_symbols table as written by the persistence path
(lines 424 to 436); created_at is wall-clock and omitted. -/
structure TickerSymbolRow where
  id : Int
  symbol : Str
  company_name : Option Str
  aliases : Str
  sector : Option Str
  market_cap : Option Str
  is_active : Bool
deriving DecidableEq, Repr

/-- One row of the article_ticker_associations table as written at lines 448
to 456; created_at is wall-clock and omitted. -/
structure AssociationRow where
  id : Int
  article_id : Int
  ticker_id : Int
  confidence : ℚ
  match_method : MatchMethod
  context_snippet : Str
deriving DecidableEq, Repr

/-- The two tables touched by persist_ticker_associations. -/
structure Db where
  ticker_symbols : List TickerSymbolRow
  article_ticker_associations : List AssociationRow
deriving DecidableEq, Repr

/-- Insert into ticker_symbols via insert_dataframe in append mode, which
issues a plain INSERT INTO (src/src/db/__init__.py lines 43 to 52).  The
DuckDB table declares id INTEGER PRIMARY KEY and symbol TEXT UNIQUE (the
create_tables DDL), so an id or symbol collision raises a constraint
error and inserts nothing. -/
def insertTickerSymbols (db : Db) (rows : List TickerSymbolRow) : Except PyErr Db :=
  if rows.any (fun r =>
       db.ticker_symbols.any (fun e => e.id = r.id ∨ e.symbol = r.symbol)) then
    .error .constraintViolation
  else
    .ok { db with ticker_symbols := db.ticker_symbols ++ rows }

/-- Insert into article_ticker_associations via insert_dataframe in append
mode.  The DuckDB table declares id INTEGER PRIMARY KEY, so an id collision
raises a constraint error and inserts nothing; no uniqueness is enforced on
the (article_id, ticker_id) pair by this DDL. -/
def insertAssociations (db : Db) (rows : List AssociationRow) : Except PyErr Db :=
  if rows.any (fun r =>
       db.article_ticker_associations.any (fun e => e.id = r.id)) then
    .error .constraintViolation
  else
    .ok { db with article_ticker_associations := db.article_ticker_associations ++ rows }

/-- The query SELECT id FROM ticker_symbols WHERE symbol = ? (lines 417 to
420): ids of the rows with the given symbol, in table order. -/
def selectTickerIds (db : Db) (symbol : Str) : List Int :=
  (db.ticker_symbols.filter (fun r => r.symbol = symbol)).map TickerSymbolRow.id

/-- The query SELECT COALESCE(MAX(id), 0) + 1 FROM ticker_symbols
(line 424). -/
def nextTickerId (db : Db) : Int :=
  (db.ticker_symbols.map TickerSymbolRow.id).foldl max 0 + 1

/-- The get-or-create step for one match (lines 416 to 445): look the symbol
up; when absent, insert a fresh row with the next id and re-read its id.
The iloc[0] access after the re-read is total here because the row was just
inserted. -/
def getOrCreateTicker (db : Db) (m : TickerMatch) : Except PyErr (Db × Int) :=
  match selectTickerIds db m.symbol with
  | tid :: _ => .ok (db, tid)
  | [] => do
    let next_id := nextTickerId db
    let row : TickerSymbolRow :=
      { id := next_id, symbol := m.symbol,
        company_name := if m.company_name ≠ [] then some m.company_name else none,
        aliases := chars "[]", sector := none, market_cap := none, is_active := true }
    let db2 ← insertTickerSymbols db [row]
    match selectTickerIds db2 m.symbol with
    | tid :: _ => .ok (db2, tid)
    | [] => .error .constraintViolation

/-- The association row built for one match at lines 448 to 456: the id is
the manual counter len(associations_data) + 1, restarting at 1 on every call
of persist_ticker_associations. -/
def assocRowFor (article_id : Int) (ticker_id : Int) (m : TickerMatch)
    (already : Nat) : AssociationRow :=
  { id := (already : Int) + 1, article_id := article_id, ticker_id := ticker_id,
    confidence := m.confidence, match_method := m.match_method,
    context_snippet := m.context_snippets.headD [] }

/-- The loop over the matches of lines 415 to 456, accumulating the
association rows while the get-or-create step may grow ticker_symbols. -/
def persistLoop (article_id : Int) :
    List TickerMatch → Db → List AssociationRow → Except PyErr (Db × List AssociationRow)
  | [], db, acc => .ok (db, acc)
  | m :: rest, db, acc => do
    let r ← getOrCreateTicker db m
    persistLoop article_id rest r.1 (acc ++ [assocRowFor article_id r.2 m acc.length])

/-- Embedding of persist_ticker_associations (lines 407 to 461): nothing on
an empty match list; otherwise run the loop and append the accumulated rows
to article_ticker_associations in one insert. -/
def persist_ticker_associations (article_id : Int) (ms : List TickerMatch)
    (db : Db) : Except PyErr Db :=
  if ms.isEmpty then .ok db
  else do
    let r ← persistLoop article_id ms db []
    if r.2.isEmpty then .ok r.1 else insertAssociations r.1 r.2

/-- Final confidence written as the specification words it: compute
max(confidences) * 0.7 + mean(confidences) * 0.3 and, when more than one
span exists for the symbol, boost to
min(finalConfidence * (1 + mentionCount * 0.05), 1.0).  This spec-side
definition exists only to be compared with the source-side mergedConfidence. -/
def specFinalConfidence (confs : List ℚ) : ℚ :=
  let fc := maxList confs * (7/10) + (confs.sum / (confs.length : ℚ)) * (3/10)
  if 1 < confs.length then min (fc * (1 + (confs.length : ℚ) * (1/20))) 1 else fc

/-- Concrete stand-in for the external json.loads call: it parses exactly the
serialized empty list and rejects everything else.  Used to instantiate the
parse parameter in concrete scenarios. -/
def simpleAliasParse (s : Str) : Except Unit (List Str) :=
  if s = chars "[]" then .ok [] else .error ()

/-- A well-formed active reference row. -/
def alphaRow : DbRow :=
  { id := some 1, symbol := chars "AAA", company_name := some (chars "Alpha Corp"),
    aliases := some (chars "[]"), sector := none, is_active := true }

/-- An active reference row whose serialized alias payload is malformed for
simpleAliasParse. -/
def betaRow : DbRow :=
  { id := some 2, symbol := chars "BBB", company_name := some (chars "Beta Corp"),
    aliases := some (chars "oops"), sector := none, is_active := true }

/-- A second well-formed active reference row, listed after betaRow. -/
def gammaRow : DbRow :=
  { id := some 3, symbol := chars "CCC", company_name := some (chars "Gamma Corp"),
    aliases := some (chars "[]"), sector := none, is_active := true }

/-- An active reference row for the known symbol AAPL. -/
def aaplRow : DbRow :=
  { id := some 1, symbol := chars "AAPL", company_name := some (chars "Apple Inc."),
    aliases := some (chars "[]"), sector := none, is_active := true }

/-- Tagger state after loading the single AAPL row. -/
def aaplState : TaggerState := load_ticker_data simpleAliasParse [aaplRow]

/-- An active reference row whose symbol CEO is itself a blacklisted token. -/
def ceoRow : DbRow :=
  { id := some 1, symbol := chars "CEO", company_name := some (chars "Ceo Corp"),
    aliases := some (chars "[]"), sector := none, is_active := true }

/-- Tagger state after loading the single CEO row. -/
def ceoState : TaggerState := load_ticker_data simpleAliasParse [ceoRow]

/-- The known-symbol mention produced by match_known_symbols on the text
AAPL rose against aaplState. -/
def aaplKnownMention : TickerMatch :=
  { symbol := chars "AAPL", company_name := chars "Apple Inc.",
    positions := [(0, 4)], context_snippets := [chars "AAPL rose"],
    confidence := 9/10, match_method := .known_symbol }

/-- Database state after one successful persist call for article 7 with the
single AAPL mention, starting from empty tables. -/
def dbAfterFirst : Db :=
  { ticker_symbols :=
      [{ id := 1, symbol := chars "AAPL", company_name := some (chars "Apple Inc."),
         aliases := chars "[]", sector := none, market_cap := none, is_active := true }],
    article_ticker_associations :=
      [{ id := 1, article_id := 7, ticker_id := 1, confidence := 9/10,
         match_method := .known_symbol, context_snippet := chars "AAPL rose" }] }

/-! Helper lemmas. -/

theorem foldlMax_le {l : List ℚ} {a b : ℚ} (ha : a ≤ b) (h : ∀ x ∈ l, x ≤ b) :
    l.foldl max a ≤ b := by
  induction l generalizing a with
  | nil => exact ha
  | cons x t ih =>
    exact ih (max_le ha (h x (by simp))) (fun y hy => h y (by simp [hy]))

theorem le_foldlMax_self (l : List ℚ) (a : ℚ) : a ≤ l.foldl max a := by
  induction l generalizing a with
  | nil => exact le_rfl
  | cons x t ih => exact le_trans (le_max_left a x) (ih (max a x))

theorem le_foldlMax_of_mem {l : List ℚ} {x : ℚ} (hx : x ∈ l) (a : ℚ) :
    x ≤ l.foldl max a := by
  induction l generalizing a with
  | nil => cases hx
  | cons y t ih =>
    rcases List.mem_cons.1 hx with rfl | hx2
    · exact le_trans (le_max_right a x) (le_foldlMax_self t (max a x))
    · exact ih hx2 (max a y)

theorem le_maxList {cs : List ℚ} {x : ℚ} (hx : x ∈ cs) : x ≤ maxList cs := by
  cases cs with
  | nil => cases hx
  | cons c t =>
    rcases List.mem_cons.1 hx with rfl | hx2
    · exact le_foldlMax_self t x
    · exact le_foldlMax_of_mem hx2 c

theorem maxList_le {cs : List ℚ} {b : ℚ} (hne : cs ≠ []) (h : ∀ x ∈ cs, x ≤ b) :
    maxList cs ≤ b := by
  cases cs with
  | nil => exact absurd rfl hne
  | cons c t => exact foldlMax_le (h c (by simp)) (fun y hy => h y (by simp [hy]))

theorem sum_le_len_mul {cs : List ℚ} {b : ℚ} (h : ∀ x ∈ cs, x ≤ b) :
    cs.sum ≤ (cs.length : ℚ) * b := by
  induction cs with
  | nil => simp
  | cons c t ih =>
    have h1 : c ≤ b := h c (by simp)
    have h2 : t.sum ≤ (t.length : ℚ) * b := ih (fun y hy => h y (by simp [hy]))
    simp only [List.sum_cons, List.length_cons]
    push_cast
    linarith

theorem len_mul_le_sum {cs : List ℚ} {a : ℚ} (h : ∀ x ∈ cs, a ≤ x) :
    (cs.length : ℚ) * a ≤ cs.sum := by
  induction cs with
  | nil => simp
  | cons c t ih =>
    have h1 : a ≤ c := h c (by simp)
    have h2 : (t.length : ℚ) * a ≤ t.sum := ih (fun y hy => h y (by simp [hy]))
    simp only [List.sum_cons, List.length_cons]
    push_cast
    linarith

theorem maxList_append_single {cs : List ℚ} (hne : cs ≠ []) (c : ℚ) :
    maxList (cs ++ [c]) = max (maxList cs) c := by
  cases cs with
  | nil => exact absurd rfl hne
  | cons x t => simp [maxList, List.foldl_append]

theorem countOccsF_pos {needle : Str} (hn : needle ≠ []) :
    ∀ fuel hay, containsSub needle hay = true → hay.length < fuel →
      1 ≤ countOccsF needle fuel hay := by
  intro fuel
  induction fuel with
  | zero => intro hay _ hlen; omega
  | succ f ih =>
    intro hay hcontains hlen
    cases hay with
    | nil =>
      simp [containsSub] at hcontains
      exact absurd hcontains hn
    | cons x t =>
      by_cases hp : needle.isPrefixOf (x :: t) = true
      · simp [countOccsF, hp]
      · have hc2 : containsSub needle t = true := by
          simp only [containsSub, Bool.or_eq_true] at hcontains
          rcases hcontains with h | h
          · exact absurd h hp
          · exact h
        have hl2 : t.length < f := by
          simp only [List.length_cons] at hlen; omega
        simpa [countOccsF, hp] using ih t hc2 hl2

theorem countOccs_pos {needle hay : Str} (hn : needle ≠ [])
    (h : containsSub needle hay = true) : 1 ≤ countOccs needle hay :=
  countOccsF_pos hn (hay.length + 1) hay h (by omega)

/-- Range of the pattern score for a ticker that actually occurs in the
document and is not an ultra-common penalised token: at least 0.55 (the base
0.5 plus the repetition bonus 0.05 the first occurrence already earns) and at
most 1.  Together with the keep-threshold 0.3 of line 245 this shows every
pattern mention that the matcher could keep carries a confidence in
[0.55, 1]. -/
theorem pattern_confidence_range {ticker full_text : Str} (context : Str)
    (hn : ticker ≠ []) (hocc : containsSub ticker full_text = true)
    (hpen : ticker ∉ penaltyTokens) :
    11/20 ≤ calculate_pattern_confidence ticker context full_text ∧
      calculate_pattern_confidence ticker context full_text ≤ 1 := by
  have hcount : 1 ≤ countOccs ticker full_text := countOccs_pos hn hocc
  have hrep : (1/20 : ℚ) ≤ patternRepetitionBonus (countOccs ticker full_text) := by
    unfold patternRepetitionBonus
    apply le_min
    · have : (1 : ℚ) ≤ (countOccs ticker full_text : ℚ) := by exact_mod_cast hcount
      nlinarith
    · norm_num
  have hind : (0 : ℚ) ≤ (indicatorCount context : ℚ) * (1/10) := by positivity
  have hdol : (0 : ℚ) ≤ dollarBonus ticker full_text := by
    unfold dollarBonus; split <;> norm_num
  unfold calculate_pattern_confidence
  simp only [if_neg hpen]
  constructor
  · apply le_min
    · linarith
    · norm_num
  · exact min_le_right _ _

/-- Merged confidence of any group that contains a known-symbol mention
(confidence 0.9) among mentions that all lie in [0.7, 1] is at least 0.9:
with one mention the score is that mention, and with several the boosted
score (0.7 * max + 0.3 * mean) * (1 + count * 0.05) is at least
0.84 * 1.1.  This is the property the specification asserts for documents
containing a known active symbol; the claim about the full pipeline fails
only because tag_article_text raises before merging. -/
theorem mergedConfidence_ge_of_known {cs : List ℚ} (hne : cs ≠ [])
    (hall : ∀ x ∈ cs, 7/10 ≤ x ∧ x ≤ 1) (hmax : 9/10 ≤ maxList cs) :
    9/10 ≤ mergedConfidence cs := by
  have hn1 : 1 ≤ cs.length := List.length_pos.mpr hne
  have hM1 : maxList cs ≤ 1 := maxList_le hne (fun x hx => (hall x hx).2)
  have hsum : (cs.length : ℚ) * (7/10) ≤ cs.sum :=
    len_mul_le_sum (fun x hx => (hall x hx).1)
  have hlenpos : (0 : ℚ) < (cs.length : ℚ) := by exact_mod_cast hn1
  have hmean : (7/10 : ℚ) ≤ cs.sum / (cs.length : ℚ) := by
    rw [le_div_iff hlenpos]; linarith
  have hmean1 : cs.sum / (cs.length : ℚ) ≤ 1 := by
    rw [div_le_one hlenpos]
    have := sum_le_len_mul (fun x hx => (hall x hx).2)
    linarith
  unfold mergedConfidence mergedScore
  by_cases h2 : 1 < cs.length
  · simp only [if_pos h2]
    have hlen2 : (2 : ℚ) ≤ (cs.length : ℚ) := by exact_mod_cast h2
    apply le_min
    · nlinarith
    · norm_num
  · simp only [if_neg h2]
    have hlen1 : cs.length = 1 := by omega
    obtain ⟨a, rfl⟩ : ∃ a, cs = [a] := by
      cases cs with
      | nil => exact absurd rfl hne
      | cons x t =>
        cases t with
        | nil => exact ⟨x, rfl⟩
        | cons y u => simp at hlen1
    have ha : 9/10 ≤ a := by simpa [maxList] using hmax
    have ha1 : a ≤ 1 := (hall a (by simp)).2
    simp [maxList]
    linarith

/-- C10: the contextual score starts at 0.7 and only ever grows before the
final clamp, so it is always at least 0.7, in particular above the 0.5
keep-threshold of line 285; consequently the contextual matcher keeps every
non-blacklisted template hit, as the map equality states. -/
theorem contextual_confidence_floor (ticker context matched_text text : Str)
    (cands : List CtxCandidate) :
    7/10 ≤ calculate_contextual_confidence ticker context matched_text ∧
    1/2 < calculate_contextual_confidence ticker context matched_text ∧
    (match_contextual_tickers text cands).map TickerMatch.symbol =
      (cands.filter
        (fun c => !(decide (upperStr c.ticker ∈ TICKER_BLACKLIST)))).map
        (fun c => upperStr c.ticker) := by
  have floor : ∀ t ctx mt : Str, 7/10 ≤ calculate_contextual_confidence t ctx mt := by
    intro t ctx mt
    unfold calculate_contextual_confidence
    have h1 : (0 : ℚ) ≤
        (if containsSub (chars "(") mt ∧ containsSub (chars ")") mt then (1/5 : ℚ) else 0) := by
      split <;> norm_num
    have h2 : (0 : ℚ) ≤ (termCount mt : ℚ) * (1/10) := by positivity
    apply le_min
    · linarith
    · norm_num
  refine ⟨floor ticker context matched_text, ?_, ?_⟩
  · have := floor ticker context matched_text
    linarith
  · induction cands with
    | nil => rfl
    | cons c rest ih =>
      by_cases hbl : upperStr c.ticker ∈ TICKER_BLACKLIST
      · simpa [match_contextual_tickers, hbl] using ih
      · have hconf : 1/2 <
            calculate_contextual_confidence (upperStr c.ticker)
              (extract_context text c.start c.stop 100) c.matched := by
          have := floor (upperStr c.ticker)
            (extract_context text c.start c.stop 100) c.matched
          linarith
        have hd : decide (upperStr c.ticker ∈ TICKER_BLACKLIST) = false :=
          decide_eq_false hbl
        simp only [match_contextual_tickers, List.filterMap_cons, List.filter_cons,
          if_neg hbl, if_pos hconf, List.map_cons, hd, Bool.not_false, if_true]
        exact congrArg (List.cons (upperStr c.ticker)) ih

/-- C8 counterexample: a token occurring exactly once does receive a
repetition bonus.  For the single-occurrence document QQQQ with an empty
context window and no dollar prefix, the source computes 0.5 + 0.05 = 0.55,
while the claimed formula (0.05 per extra occurrence beyond the first) would
give 0.5. -/
theorem pattern_single_occurrence_bonus_counterexample :
    countOccs (chars "QQQQ") (chars "QQQQ") = 1 ∧
    calculate_pattern_confidence (chars "QQQQ") [] (chars "QQQQ") = 11/20 ∧
    1/2 + (indicatorCount [] : ℚ) * (1/10) + dollarBonus (chars "QQQQ") (chars "QQQQ") +
      claimRepetitionBonus 1 = 1/2 ∧
    (11/20 : ℚ) ≠ 1/2 := by
  have hc : countOccs (chars "QQQQ") (chars "QQQQ") = 1 := rfl
  have hi : indicatorCount [] = 0 := rfl
  have hnd : containsSub (chars "$" ++ chars "QQQQ") (chars "QQQQ") = false := rfl
  have hd : dollarBonus (chars "QQQQ") (chars "QQQQ") = 0 := by
    simp [dollarBonus, hnd]
  have hp : chars "QQQQ" ∉ penaltyTokens := by decide
  refine ⟨hc, ?_, ?_, by norm_num⟩
  · simp only [calculate_pattern_confidence, hc, hi, hd, if_neg hp]
    norm_num [patternRepetitionBonus]
  · rw [hi, hd]
    norm_num [claimRepetitionBonus]

/-- C8 amended: the pattern score starts at 0.5, adds 0.1 per financial
indicator in the context, adds 0.2 when the symbol also appears
dollar-prefixed anywhere in the document, and adds min(count * 0.05, 0.2)
for repetition, that is 0.05 per occurrence counting the first one, capped at
0.2 (so a token occurring exactly once receives a 0.05 bonus); the sum is
scaled by 0.1 for ultra-common tokens and clamped at 1. -/
theorem pattern_confidence_formula (ticker context full_text : Str) :
    calculate_pattern_confidence ticker context full_text =
      min ((1/2 + (indicatorCount context : ℚ) * (1/10) + dollarBonus ticker full_text +
        patternRepetitionBonus (countOccs ticker full_text)) *
        (if ticker ∈ penaltyTokens then (1/10 : ℚ) else 1)) 1 ∧
    patternRepetitionBonus (countOccs ticker full_text) ≤ 1/5 ∧
    patternRepetitionBonus 1 = 1/20 := by
  refine ⟨?_, min_le_right _ _, by norm_num [patternRepetitionBonus]⟩
  unfold calculate_pattern_confidence
  split <;> ring_nf

/-- C7: for every nonempty group of mention confidences in [0,1], the merged
confidence computed at lines 379 to 391 equals the formula the specification
states (max * 0.7 + mean * 0.3, boosted by min(value * (1 + count * 0.05), 1)
when more than one span exists), and the result always lies in [0, 1]. -/
theorem merged_confidence_formula_and_range (cs : List ℚ) (hne : cs ≠ [])
    (hb : ∀ x ∈ cs, 0 ≤ x ∧ x ≤ 1) :
    mergedConfidence cs = specFinalConfidence cs ∧
    0 ≤ mergedConfidence cs ∧ mergedConfidence cs ≤ 1 := by
  refine ⟨rfl, ?_, ?_⟩ <;>
  · have hn1 : 1 ≤ cs.length := List.length_pos.mpr hne
    have hlenpos : (0 : ℚ) < (cs.length : ℚ) := by exact_mod_cast hn1
    obtain ⟨w, hw⟩ : ∃ w, w ∈ cs := by
      cases cs with
      | nil => exact absurd rfl hne
      | cons x t => exact ⟨x, by simp⟩
    have hM0 : 0 ≤ maxList cs := le_trans (hb w hw).1 (le_maxList hw)
    have hM1 : maxList cs ≤ 1 := maxList_le hne (fun x hx => (hb x hx).2)
    have hs0 : (0 : ℚ) ≤ cs.sum := by
      have := len_mul_le_sum (fun x hx => (hb x hx).1)
      simpa using this
    have hs1 : cs.sum ≤ (cs.length : ℚ) * 1 :=
      sum_le_len_mul (fun x hx => (hb x hx).2)
    have hmean0 : (0 : ℚ) ≤ cs.sum / (cs.length : ℚ) := by positivity
    have hmean1 : cs.sum / (cs.length : ℚ) ≤ 1 := by
      rw [div_le_one hlenpos]; linarith
    unfold mergedConfidence mergedScore
    by_cases h2 : 1 < cs.length
    · simp only [if_pos h2]
      first
      | · apply le_min
          · have hlen0 : (0 : ℚ) ≤ (cs.length : ℚ) := le_of_lt hlenpos
            nlinarith
          · norm_num
      | · exact min_le_right _ _
    · simp only [if_neg h2]
      first
      | · nlinarith
      | · nlinarith

/-- C7 witness at the concrete group [4/5, 9/10]. -/
theorem merged_confidence_formula_and_range_witness :
    ([(4:ℚ)/5, 9/10] ≠ []) ∧ (∀ x ∈ [(4:ℚ)/5, 9/10], 0 ≤ x ∧ x ≤ 1) ∧
    (mergedConfidence [(4:ℚ)/5, 9/10] = specFinalConfidence [(4:ℚ)/5, 9/10] ∧
     0 ≤ mergedConfidence [(4:ℚ)/5, 9/10] ∧ mergedConfidence [(4:ℚ)/5, 9/10] ≤ 1) := by
  refine ⟨by simp, ?_, ?_⟩
  · intro x hx
    rcases List.mem_cons.1 hx with rfl | hx2
    · norm_num
    · rcases List.mem_cons.1 hx2 with rfl | hx3
      · norm_num
      · cases hx3
  · exact merged_confidence_formula_and_range [(4:ℚ)/5, 9/10] (by simp)
      (by
        intro x hx
        rcases List.mem_cons.1 hx with rfl | hx2
        · norm_num
        · rcases List.mem_cons.1 hx2 with rfl | hx3
          · norm_num
          · cases hx3)

/-- C9: when the combined title-plus-body text is empty or whitespace-only,
tag_article_text returns the empty list (line 131) and no error is raised,
for every tagger state and every contextual-hit oracle. -/
theorem tag_article_text_blank_returns_empty (st : TaggerState)
    (ec : Str → List CtxCandidate) (title text : Str)
    (h : isBlank (fullTextOf title text) = true) :
    tag_article_text st ec title text = .ok [] := by
  unfold tag_article_text
  simp [h]

/-- C9 witness: empty title and whitespace-only body. -/
theorem tag_article_text_blank_returns_empty_witness :
    isBlank (fullTextOf (chars "") (chars " ")) = true ∧
    tag_article_text emptyTagger (fun _ => []) (chars "") (chars " ") = .ok [] :=
  ⟨rfl, tag_article_text_blank_returns_empty emptyTagger (fun _ => []) (chars "") (chars " ") rfl⟩

/-- C2 fails on the code: for every non-blank document, tag_article_text
raises.  Its third matching step calls
extract_tickers_from_text(text, use_whitelist=False) at line 229, but the
definition at line 25 accepts no keyword use_whitelist, so Python raises
TypeError and the tagging of the document aborts instead of returning a
best-effort list. -/
theorem tag_article_text_raises_on_nonblank (st : TaggerState)
    (ec : Str → List CtxCandidate) (title text : Str)
    (h : isBlank (fullTextOf title text) = false) :
    tag_article_text st ec title text = .error .typeError := by
  unfold tag_article_text
  simp only [h, Bool.false_eq_true, if_false]
  rfl

/-- C2 witness: the one-word document AAPL with an empty tagger state. -/
theorem tag_article_text_raises_on_nonblank_witness :
    isBlank (fullTextOf (chars "") (chars "AAPL")) = false ∧
    tag_article_text emptyTagger (fun _ => []) (chars "") (chars "AAPL") =
      .error .typeError :=
  ⟨rfl, tag_article_text_raises_on_nonblank emptyTagger (fun _ => []) (chars "") (chars "AAPL") rfl⟩

/-- C5 fails on the code for the same reason as C2: even for a document that
contains a whole-word occurrence of the known, active, non-blacklisted symbol
AAPL of the loaded reference set, tag_article_text raises TypeError instead
of producing the known-symbol TaggedResult the specification promises.  The
conjuncts record that the scenario satisfies every premise of the claim:
AAPL is loaded and active, not blacklisted, and occurs as a whole word. -/
theorem tagging_crashes_despite_known_symbol :
    aaplRow.is_active = true ∧
    (alGet? aaplState.symbol_dict (chars "AAPL")).isSome = true ∧
    (chars "AAPL") ∉ TICKER_BLACKLIST ∧
    (chars "AAPL") ∈ (tokensWithSpans (chars "AAPL shares rose")).map
      (fun t => upperStr t.1) ∧
    tag_article_text aaplState (fun _ => []) (chars "") (chars "AAPL shares rose") =
      .error .typeError := by
  refine ⟨rfl, rfl, by decide, by decide, rfl⟩

/-- C6 counterexample: the blacklist is not enforced under every method.
The company-name matcher (lines 192 to 222) has no blacklist check, so when a
reference record carries the blacklisted symbol CEO, a hit on its company
name Ceo Corp produces a merged TaggedResult whose symbol is the blacklisted
token CEO. -/
theorem blacklisted_symbol_tagged_via_company_name :
    (chars "CEO") ∈ TICKER_BLACKLIST ∧
    ceoRow.is_active = true ∧
    (deduplicate_and_score
        (match_company_names ceoState (chars "Ceo Corp announced"))
        (chars "Ceo Corp announced")).map TickerMatch.symbol = [chars "CEO"] := by
  refine ⟨by decide, rfl, by decide⟩

/-- C6 amended: the known-symbol matcher (line 170) and the contextual
matcher (line 277) do enforce the blacklist: no mention either of them
produces carries a blacklisted symbol.  The company-name matcher enforces no
such check, as the counterexample shows. -/
theorem known_and_contextual_respect_blacklist (st : TaggerState) (text : Str)
    (cands : List CtxCandidate) (m : TickerMatch)
    (h : m ∈ match_known_symbols st text ++ match_contextual_tickers text cands) :
    m.symbol ∉ TICKER_BLACKLIST := by
  rcases List.mem_append.1 h with hk | hc
  · obtain ⟨tok, _, heq⟩ := List.mem_filterMap.1 hk
    by_cases hbl : upperStr tok.1 ∈ TICKER_BLACKLIST
    · rw [if_pos hbl] at heq
      cases heq
    · rw [if_neg hbl] at heq
      rcases halg : alGet? st.symbol_dict (upperStr tok.1) with _ | obj
      · rw [halg] at heq
        cases heq
      · rw [halg] at heq
        injection heq with h2
        rw [← h2]
        exact hbl
  · obtain ⟨c, _, heq⟩ := List.mem_filterMap.1 hc
    by_cases hbl : upperStr c.ticker ∈ TICKER_BLACKLIST
    · rw [if_pos hbl] at heq
      cases heq
    · rw [if_neg hbl] at heq
      by_cases hconf : (1:ℚ)/2 <
          calculate_contextual_confidence (upperStr c.ticker)
            (extract_context text c.start c.stop 100) c.matched
      · rw [if_pos hconf] at heq
        injection heq with h2
        rw [← h2]
        exact hbl
      · rw [if_neg hconf] at heq
        cases heq

/-- Witness of the amended C6 at the known-symbol mention of AAPL. -/
theorem known_and_contextual_respect_blacklist_witness :
    (aaplKnownMention ∈ match_known_symbols aaplState (chars "AAPL rose") ++
      match_contextual_tickers (chars "AAPL rose") []) ∧
    aaplKnownMention.symbol ∉ TICKER_BLACKLIST := by
  have h1 : match_known_symbols aaplState (chars "AAPL rose") = [aaplKnownMention] := rfl
  have hmem : aaplKnownMention ∈ match_known_symbols aaplState (chars "AAPL rose") ++
      match_contextual_tickers (chars "AAPL rose") [] := by
    rw [h1]
    simp [match_contextual_tickers]
  exact ⟨hmem, known_and_contextual_respect_blacklist aaplState (chars "AAPL rose")
      [] aaplKnownMention hmem⟩

/-- C4 counterexample: the whole load loop of _load_ticker_data sits inside
one try block, so a malformed alias payload (here the record BBB) does not
yield that record with an empty alias list: it ends the load, dropping BBB
and every later record (here CCC); only the earlier record AAA is loaded. -/
theorem load_malformed_aborts_counterexample :
    aliasPayload simpleAliasParse betaRow = .error () ∧
    ((load_ticker_data simpleAliasParse [alphaRow, betaRow, gammaRow]).symbol_dict.map
      Prod.fst) = [chars "AAA"] ∧
    alGet? (load_ticker_data simpleAliasParse [alphaRow, betaRow, gammaRow]).symbol_dict
      (chars "BBB") = none ∧
    alGet? (load_ticker_data simpleAliasParse [alphaRow, betaRow, gammaRow]).symbol_dict
      (chars "CCC") = none := by
  refine ⟨rfl, by decide, by decide, by decide⟩

/-- Worker lemma for the amended C4: once a row with a malformed payload is
reached, the load returns the state built from the earlier rows only. -/
theorem loadRows_stops_at_error (parse : Str → Except Unit (List Str))
    (bad : DbRow) (hbad : aliasPayload parse bad = .error ()) :
    ∀ (xs ys : List DbRow) (st : TaggerState),
      (∀ r ∈ xs, ∃ v, aliasPayload parse r = .ok v) →
      loadRows parse st (xs ++ bad :: ys) = loadRows parse st xs := by
  intro xs
  induction xs with
  | nil =>
    intro ys st _
    simp only [List.nil_append, loadRows, hbad]
  | cons x t ih =>
    intro ys st hx
    obtain ⟨v, hv⟩ := hx x (by simp)
    simp only [List.cons_append, loadRows, hv]
    exact ih ys (loadRow st x v) (fun r hr => hx r (by simp [hr]))

/-- C4 amended: a malformed alias payload on one active record does not skip
just that record; it aborts the remainder of the load.  The loader keeps the
records seen before the malformed one, loads neither the malformed record nor
any record after it, and still raises nothing to the caller. -/
theorem load_malformed_stops_load (parse : Str → Except Unit (List Str))
    (pre post : List DbRow) (bad : DbRow)
    (hpre : ∀ r ∈ pre, ∃ v, aliasPayload parse r = .ok v)
    (hbadA : bad.is_active = true)
    (hbadP : aliasPayload parse bad = .error ()) :
    load_ticker_data parse (pre ++ bad :: post) = load_ticker_data parse pre := by
  unfold load_ticker_data
  rw [List.filter_append, List.filter_cons, if_pos (by simp [hbadA])]
  exact loadRows_stops_at_error parse bad hbadP (pre.filter (fun r => r.is_active))
    (post.filter (fun r => r.is_active)) emptyTagger
    (fun r hr => hpre r (List.mem_of_mem_filter hr))

/-- Witness of the amended C4 on the three-record scenario. -/
theorem load_malformed_stops_load_witness :
    (∀ r ∈ [alphaRow], ∃ v, aliasPayload simpleAliasParse r = .ok v) ∧
    betaRow.is_active = true ∧
    aliasPayload simpleAliasParse betaRow = .error () ∧
    load_ticker_data simpleAliasParse ([alphaRow] ++ betaRow :: [gammaRow]) =
      load_ticker_data simpleAliasParse [alphaRow] := by
  have hpre : ∀ r ∈ [alphaRow], ∃ v, aliasPayload simpleAliasParse r = .ok v := by
    intro r hr
    rcases List.mem_cons.1 hr with rfl | hx
    · exact ⟨[], rfl⟩
    · cases hx
  exact ⟨hpre, rfl, rfl,
    load_malformed_stops_load simpleAliasParse [alphaRow] [gammaRow] betaRow hpre rfl rfl⟩

/-- C1 fails on the code: persistence is append-only, not insert-or-ignore.
The first call for article 7 with the single AAPL mention creates the ticker
row and one association row whose id is the manual counter 1 (line 449).  The
second identical call rebuilds association rows with ids starting at 1 again
and appends them with a plain INSERT, which collides with the primary key of
article_ticker_associations and raises a constraint error, instead of leaving
the existing row alone as insert-or-ignore semantics would (without the
primary key the same code would append a duplicate (7, AAPL) row). -/
theorem persist_second_call_not_ignored :
    persist_ticker_associations 7 [aaplKnownMention] ⟨[], []⟩ = .ok dbAfterFirst ∧
    (dbAfterFirst.article_ticker_associations.filter
      (fun r => decide (r.article_id = 7 ∧ r.ticker_id = 1))).length = 1 ∧
    persist_ticker_associations 7 [aaplKnownMention] dbAfterFirst =
      .error .constraintViolation := by
  refine ⟨rfl, rfl, rfl⟩

/-- Unfolding of the merged score for a singleton group: the score is the
unboosted max * 0.7 + mean * 0.3 with mean over one element. -/
theorem mergedConfidence_eq_single {cs : List ℚ} (h1 : cs.length = 1) :
    mergedConfidence cs = maxList cs * (7/10) + cs.sum * (3/10) := by
  unfold mergedConfidence mergedScore
  rw [h1]
  norm_num

/-- Unfolding of the merged score for a group with more than one mention. -/
theorem mergedConfidence_eq_boosted {cs : List ℚ} (h2 : 1 < cs.length) :
    mergedConfidence cs =
      min ((maxList cs * (7/10) + (cs.sum / (cs.length : ℚ)) * (3/10)) *
        (1 + (cs.length : ℚ) * (1/20))) 1 := by
  unfold mergedConfidence mergedScore
  rw [if_pos h2]

/-- Unfolding of the merged score after appending one more confidence to a
nonempty group. -/
theorem mergedConfidence_append_eq (cs : List ℚ) (hne : cs ≠ []) (c : ℚ) :
    mergedConfidence (cs ++ [c]) =
      min ((max (maxList cs) c * (7/10) +
        ((cs.sum + c) / ((cs.length : ℚ) + 1)) * (3/10)) *
        (1 + ((cs.length : ℚ) + 1) * (1/20))) 1 := by
  unfold mergedConfidence mergedScore
  rw [maxList_append_single hne c]
  have hlen : (cs ++ [c]).length = cs.length + 1 := by simp
  have hsum : (cs ++ [c]).sum = cs.sum + c := by simp
  rw [hlen, hsum,
    if_pos (by have := List.length_pos.mpr hne; omega : 1 < cs.length + 1)]
  push_cast
  ring_nf

/-- Monotonicity core, one existing mention: appending a confidence of at
least 0.55 to a singleton group never lowers the merged score. -/
theorem mergeMono_core1 (M m c : ℚ) (hm0 : 0 ≤ m) (hmM : m ≤ M) (hM1 : M ≤ 1)
    (hc : 11/20 ≤ c) (hc1 : c ≤ 1) :
    M * (7/10) + m * (3/10) ≤
      min ((max M c * (7/10) + ((m + c)/2) * (3/10)) * (11/10)) 1 := by
  apply le_min
  · rcases le_total c M with h | h
    · rw [max_eq_left h]
      linarith
    · rw [max_eq_right h]
      linarith
  · linarith

/-- Monotonicity core, two existing mentions. -/
theorem mergeMono_core2 (M m μ c : ℚ) (hm0 : 0 ≤ m) (hmM : m ≤ M) (hM1 : M ≤ 1)
    (hc : 11/20 ≤ c) (hc1 : c ≤ 1) (hμ : 3*μ = 2*m + c) :
    min ((M*(7/10) + m*(3/10)) * (11/10)) 1 ≤
      min ((max M c*(7/10) + μ*(3/10)) * (23/20)) 1 := by
  have hμv : μ = (2*m + c)/3 := by linarith
  rcases le_total ((M*(7/10) + m*(3/10)) * (11/10)) 1 with hB | hB
  · rw [min_eq_left hB]
    apply le_min
    · rcases le_total c M with h | h
      · rw [max_eq_left h, hμv]
        linarith
      · rw [max_eq_right h, hμv]
        linarith
    · exact hB
  · rw [min_eq_right hB]
    apply le_min
    · rcases le_total c M with h | h
      · rw [max_eq_left h, hμv]
        linarith
      · rw [max_eq_right h, hμv]
        linarith
    · exact le_refl 1

/-- Monotonicity core, at least three existing mentions; the mention count
enters as the rational ν. -/
theorem mergeMono_core3 (ν M m μ c : ℚ) (hν : 3 ≤ ν) (hm0 : 0 ≤ m) (hmM : m ≤ M)
    (hM1 : M ≤ 1) (hm1 : m ≤ 1) (hc : 11/20 ≤ c) (hc1 : c ≤ 1)
    (hμ : (ν+1)*μ = ν*m + c) :
    min ((M*(7/10) + m*(3/10)) * (1 + ν*(1/20))) 1 ≤
      min ((max M c*(7/10) + μ*(3/10)) * (1 + (ν+1)*(1/20))) 1 := by
  have hν1 : (0:ℚ) < ν + 1 := by linarith
  have hb' : (0:ℚ) ≤ 1 + (ν+1)*(1/20) := by linarith
  have hkey : 0 ≤ (1/20)*(M*(7/10)+m*(3/10))*(ν+1) +
      (3/10)*(c-m)*(1 + (ν+1)*(1/20)) := by
    rcases le_total m c with h | h
    · have h1 : (0:ℚ) ≤ M*(7/10)+m*(3/10) := by linarith
      have h2 : (0:ℚ) ≤ c - m := by linarith
      have t1 := mul_nonneg h1 (le_of_lt hν1)
      have t2 := mul_nonneg h2 hb'
      nlinarith [t1, t2]
    · have hm55 : 11/20 ≤ m := le_trans hc h
      nlinarith [mul_nonneg (sub_nonneg.mpr hc)
          (by linarith : (0:ℚ) ≤ 63/10 + (3/10)*ν),
        mul_nonneg (sub_nonneg.mpr hν) (sub_nonneg.mpr hm55),
        mul_nonneg (sub_nonneg.mpr hmM) (le_of_lt hν1)]
  have hident : (ν+1) * ((M*(7/10) + μ*(3/10)) * (1 + (ν+1)*(1/20))) =
      (ν+1) * ((M*(7/10) + m*(3/10)) * (1 + ν*(1/20))) +
      ((1/20)*(M*(7/10)+m*(3/10))*(ν+1) + (3/10)*(c-m)*(1 + (ν+1)*(1/20))) := by
    linear_combination ((3/10) * (1 + (ν+1)*(1/20))) * hμ
  have hmono : (M*(7/10) + m*(3/10)) * (1 + ν*(1/20)) ≤
      (M*(7/10) + μ*(3/10)) * (1 + (ν+1)*(1/20)) := by
    have h2 : (ν+1) * ((M*(7/10) + m*(3/10)) * (1 + ν*(1/20))) ≤
        (ν+1) * ((M*(7/10) + μ*(3/10)) * (1 + (ν+1)*(1/20))) := by
      linarith [hident, hkey]
    exact le_of_mul_le_mul_left h2 hν1
  have hmax : (M*(7/10) + μ*(3/10)) * (1 + (ν+1)*(1/20)) ≤
      (max M c*(7/10) + μ*(3/10)) * (1 + (ν+1)*(1/20)) := by
    apply mul_le_mul_of_nonneg_right _ hb'
    have hMm : M ≤ max M c := le_max_left M c
    linarith
  rcases le_total ((M*(7/10) + m*(3/10)) * (1 + ν*(1/20))) 1 with hB | hB
  · rw [min_eq_left hB]
    exact le_min (le_trans hmono hmax) hB
  · rw [min_eq_right hB]
    exact le_min (le_trans hB (le_trans hmono hmax)) (le_refl 1)

/-- C3: merge monotonicity.  For any nonempty group of mention confidences
that the matchers can produce (every value in [0.55, 1]: pattern mentions
carry at least 0.55 by pattern_confidence_range, contextual mentions at
least the 0.7 base of their score, company-name mentions 0.8 and
known-symbol mentions 0.9), appending one more such mention never decreases
the merged confidence computed by _deduplicate_and_score. -/
theorem merge_monotone_in_mentions (cs : List ℚ) (hne : cs ≠ [])
    (hall : ∀ x ∈ cs, 11/20 ≤ x ∧ x ≤ 1) (c : ℚ) (hc : 11/20 ≤ c) (hc1 : c ≤ 1) :
    mergedConfidence cs ≤ mergedConfidence (cs ++ [c]) := by
  have hn1 : 1 ≤ cs.length := List.length_pos.mpr hne
  have hlenpos : (0:ℚ) < (cs.length : ℚ) := by exact_mod_cast hn1
  obtain ⟨w, hw⟩ : ∃ w, w ∈ cs := by
    cases cs with
    | nil => exact absurd rfl hne
    | cons x t => exact ⟨x, by simp⟩
  have hM1 : maxList cs ≤ 1 := maxList_le hne (fun x hx => (hall x hx).2)
  have hM55 : 11/20 ≤ maxList cs := le_trans (hall w hw).1 (le_maxList hw)
  have hs0 : (0:ℚ) ≤ cs.sum := by
    have h := len_mul_le_sum (fun x hx => (hall x hx).1)
    have h2 : (0:ℚ) ≤ (cs.length : ℚ) * (11/20) := by positivity
    linarith
  have hsM : cs.sum ≤ (cs.length : ℚ) * maxList cs :=
    sum_le_len_mul (fun x hx => le_maxList hx)
  have hs1 : cs.sum ≤ (cs.length : ℚ) * 1 :=
    sum_le_len_mul (fun x hx => (hall x hx).2)
  have hm0 : 0 ≤ cs.sum / (cs.length : ℚ) := by positivity
  have hmM : cs.sum / (cs.length : ℚ) ≤ maxList cs := by
    rw [div_le_iff hlenpos]
    linarith
  have hm1 : cs.sum / (cs.length : ℚ) ≤ 1 := by
    rw [div_le_one hlenpos]
    linarith
  rw [mergedConfidence_append_eq cs hne c]
  rcases Nat.lt_or_ge cs.length 2 with h2 | h2
  · have hl1 : cs.length = 1 := by omega
    have hsM1 : cs.sum ≤ maxList cs := by
      have := hsM
      rw [hl1] at this
      push_cast at this
      linarith
    rw [mergedConfidence_eq_single hl1, hl1]
    push_cast
    have hcore := mergeMono_core1 (maxList cs) cs.sum c hs0 hsM1 hM1 hc hc1
    convert hcore using 2
    ring
  · rw [mergedConfidence_eq_boosted (by omega : 1 < cs.length)]
    rcases Nat.lt_or_ge cs.length 3 with h3 | h3
    · have hl2 : cs.length = 2 := by omega
      have hmM2 : cs.sum / 2 ≤ maxList cs := by
        have := hmM
        rw [hl2] at this
        push_cast at this
        linarith
      have hm02 : (0:ℚ) ≤ cs.sum / 2 := by positivity
      have hμ : 3 * ((cs.sum + c)/((2:ℚ)+1)) = 2 * (cs.sum/2) + c := by
        field_simp
        ring
      have hcore := mergeMono_core2 (maxList cs) (cs.sum/2) ((cs.sum + c)/((2:ℚ)+1))
        c hm02 hmM2 hM1 hc hc1 hμ
      rw [hl2]
      push_cast
      convert hcore using 2 <;> ring
    · have hν : (3:ℚ) ≤ (cs.length : ℚ) := by exact_mod_cast h3
      have hμ : ((cs.length:ℚ)+1) * ((cs.sum + c)/((cs.length:ℚ)+1)) =
          (cs.length:ℚ) * (cs.sum/(cs.length:ℚ)) + c := by
        field_simp
      exact mergeMono_core3 (cs.length:ℚ) (maxList cs) (cs.sum/(cs.length:ℚ))
        ((cs.sum + c)/((cs.length:ℚ)+1)) c hν hm0 hmM hM1 hm1 hc hc1 hμ

/-- C3 witness: appending a contextual-strength mention 0.7 to the singleton
known-symbol group 0.9 raises the merged confidence (0.9 to 0.957). -/
theorem merge_monotone_in_mentions_witness :
    ([(9:ℚ)/10] ≠ []) ∧ (∀ x ∈ [(9:ℚ)/10], 11/20 ≤ x ∧ x ≤ 1) ∧
    (11/20 ≤ (7:ℚ)/10 ∧ (7:ℚ)/10 ≤ 1) ∧
    mergedConfidence [(9:ℚ)/10] ≤ mergedConfidence ([(9:ℚ)/10] ++ [7/10]) := by
  have hall : ∀ x ∈ [(9:ℚ)/10], 11/20 ≤ x ∧ x ≤ 1 := by
    intro x hx
    rcases List.mem_cons.1 hx with rfl | hx2
    · norm_num
    · cases hx2
  exact ⟨by simp, hall, by norm_num,
    merge_monotone_in_mentions [(9:ℚ)/10] (by simp) hall (7/10) (by norm_num) (by norm_num)⟩

end StockPort
